import Mathlib

/-!
# Verification of the progressive DOM translation pipeline

Shallow embedding of the translation core of the `tower-of-babel` browser
extension: the session controller (`translationState.ts`), the word
replacement DOM mutator (`nodeTranslator` generation with
`replaceWordInNode` / `preserveCapitalization` / `createTranslatedWordSpan`),
the reverter (`translationCleaner.ts`), the word-pair resolver
(`PromptService.selectWordsFromBatch` / `validateWordPairs` /
`fallbackWordSelection`), the batch loop (`translateAndReplaceBatches`),
the density configuration (`translationConfig.ts`), the lazy viewport
loader (`ProgressiveTextLoader`) and the element scanner
(`getContentElements`).

Strings are modelled as `List Char`; character classes and case mapping
follow the ASCII behaviour of the JavaScript regular expressions used by
the source (`\w`, the `i` flag, `toLowerCase`/`toUpperCase` on ASCII).
-/

namespace Babel

/-! ## Character model (ASCII fragment of JS `\w`, `toLowerCase`, `toUpperCase`) -/

/-- JS `\w` character class `[A-Za-z0-9_]`, on code points. -/
def isWordCharN (n : Nat) : Bool :=
  (65 ≤ n && n ≤ 90) || (97 ≤ n && n ≤ 122) || (48 ≤ n && n ≤ 57) || n == 95

/-- ASCII lower-casing on code points (JS `toLowerCase` on ASCII input). -/
def lowerN (n : Nat) : Nat := if 65 ≤ n && n ≤ 90 then n + 32 else n

/-- ASCII upper-casing on code points (JS `toUpperCase` on ASCII input). -/
def upperN (n : Nat) : Nat := if 97 ≤ n && n ≤ 122 then n - 32 else n

/-- JS `\w` test on a character. -/
def isWordChar (c : Char) : Bool := isWordCharN c.toNat

/-- ASCII lower-casing of one character. -/
def lowerChar (c : Char) : Char := Char.ofNat (lowerN c.toNat)

/-- ASCII upper-casing of one character. -/
def upperChar (c : Char) : Char := Char.ofNat (upperN c.toNat)

/-- Lower-cased image of a string, as code points.  Used for the
case-insensitive (`i` flag) comparisons of the source's regexes. -/
def lowerKey (s : List Char) : List Nat := s.map (fun c => lowerN c.toNat)

/-- Case-insensitive string equality, as performed by the `i`-flag regexes
and by the `toLowerCase()` comparisons of the source. -/
def ciEq (a b : List Char) : Bool := lowerKey a == lowerKey b

theorem isWordCharN_lowerN (n : Nat) : isWordCharN (lowerN n) = isWordCharN n := by
  unfold isWordCharN lowerN
  split <;> rename_i h <;> simp_all


/-! ## Session controller (`translationState.ts`)

`TranslationState` holds a private `isActive` flag and a nullable
`AbortController`.  `start()` sets the flag and allocates a fresh
controller; `stop()` clears the flag, aborts and nulls the controller;
`shouldContinue()` reads `isActive && !abortController?.signal.aborted`. -/

/-- The observable part of a DOM `AbortController`: whether its signal
has been aborted. -/
structure AbortCtrl where
  aborted : Bool
deriving DecidableEq, Repr

/-- State of the `TranslationState` singleton. -/
structure TranslationState where
  isActive : Bool
  abortController : Option AbortCtrl
deriving DecidableEq, Repr

namespace TranslationState

/-- Initial state of the singleton (`isActive = false`, no controller). -/
def init : TranslationState := ⟨false, none⟩

/-- Model of `start()`: sets `isActive := true` and replaces the controller with a
fresh, unaborted one.  The previous controller is discarded without being
aborted. -/
def start (_ : TranslationState) : TranslationState :=
  ⟨true, some ⟨false⟩⟩

/-- Model of `stop()`: sets `isActive := false`, aborts the controller if present
and nulls the field. -/
def stop (_ : TranslationState) : TranslationState :=
  ⟨false, none⟩

/-- Model of `shouldContinue()`: `this.isActive && !this.abortController?.signal.aborted`
(with a null controller the optional chain yields `undefined`, which is
falsy, so the right conjunct is `true`). -/
def shouldContinue (s : TranslationState) : Bool :=
  s.isActive && !((s.abortController.map AbortCtrl.aborted).getD false)

end TranslationState

/-- Claim C2, counterexample. Start a session, then call `start()` again while
the first session is active: the very next `shouldContinue()` check (shared
by both sessions through the singleton) returns `true`, not `false` — the
superseded session is *not* invalidated. -/
theorem c2_start_while_active_counterexample :
    (TranslationState.init.start).isActive = true ∧
    TranslationState.shouldContinue (TranslationState.init.start.start) = true := by
  constructor <;> rfl

/-- Claim C2, amended. Calling `start()` never makes the next
`shouldContinue()` check return `false`, even when a session was already
active; only `stop()` does.  (The superseded session keeps observing
`shouldContinue() = true` because `start()` installs a fresh unaborted
controller and leaves the shared `isActive` flag set.) -/
theorem c2_only_stop_invalidates (s : TranslationState) :
    TranslationState.shouldContinue s.start = true ∧
    TranslationState.shouldContinue s.stop = false := by
  constructor <;> rfl

/-! ## Density configuration and target word count
(`translationConfig.ts` `DENSITY_RATIOS`, `PromptService.selectWordsFromBatch`) -/

/-- The `DensityLevel` type from `translationConfig.ts`. -/
inductive Density | low | medium | high
deriving DecidableEq, Repr

/-- The named `DENSITY_RATIOS` mapping: `{ low: 50, medium: 25, high: 20 }`. -/
def ratioForDensity : Density → Nat
  | .low => 50
  | .medium => 25
  | .high => 20

/-- Whether a character can be part of a `\b[\w']+\b` token. -/
def isTokenChar (c : Char) : Bool := isWordChar c || c == Char.ofNat 39

/-- One-pass splitter into maximal runs of token characters; `acc` holds
the current run reversed. -/
def tokenRunsAux : List Char → List Char → List (List Char)
  | [], acc => if acc.isEmpty then [] else [acc.reverse]
  | c :: rest, acc =>
    if isTokenChar c then tokenRunsAux rest (c :: acc)
    else if acc.isEmpty then tokenRunsAux rest []
    else acc.reverse :: tokenRunsAux rest []

/-- Maximal runs of token characters in a string. -/
def tokenRuns (text : List Char) : List (List Char) :=
  tokenRunsAux text []

/-- Strip leading and trailing apostrophes from a token run; the `\b`
anchors of `/\b[\w']+\b/` force the match to start and end on a word
character. -/
def trimApostrophes (run : List Char) : List Char :=
  (((run.dropWhile (· == Char.ofNat 39)).reverse.dropWhile (· == Char.ofNat 39)).reverse)

/-- Model of `text.match(/\b[\w']+\b/g)`: token runs with surrounding
apostrophes stripped, empty results discarded. -/
def wordTokens (text : List Char) : List (List Char) :=
  ((tokenRuns text).map trimApostrophes).filter (· ≠ [])

/-- JS `Math.round(a / b)` for natural `a`, positive natural `b`:
`⌊a/b + 1/2⌋ = (2a + b) / (2b)` in integer division. -/
def jsRoundDiv (a b : Nat) : Nat := (2 * a + b) / (2 * b)

/-- The count `targetWordCount = Math.max(1, Math.round(words.length / densityRatio))`
computed by `PromptService.selectWordsFromBatch`, where `words` is
`originalText.match(/\b[\w']+\b/g)`. -/
def targetWordCount (d : Density) (text : List Char) : Nat :=
  max 1 (jsRoundDiv (wordTokens text).length (ratioForDensity d))

/-- Claim C8. For the same input text the target selected-word count is
monotone in density: `high` yields a count ≥ `medium` ≥ `low`, the count
being `max(1, round(wordCount / densityRatio))` under the named
`DENSITY_RATIOS` mapping `{low: 50, medium: 25, high: 20}`. -/
theorem c8_density_monotone (text : List Char) :
    targetWordCount .low text ≤ targetWordCount .medium text ∧
    targetWordCount .medium text ≤ targetWordCount .high text := by
  constructor
  · show max 1 (jsRoundDiv (wordTokens text).length 50) ≤
      max 1 (jsRoundDiv (wordTokens text).length 25)
    exact max_le_max (le_refl 1) (by unfold jsRoundDiv; omega)
  · show max 1 (jsRoundDiv (wordTokens text).length 25) ≤
      max 1 (jsRoundDiv (wordTokens text).length 20)
    exact max_le_max (le_refl 1) (by unfold jsRoundDiv; omega)

/-! ## Word-boundary regex matching
(`replaceWordInNode`'s `new RegExp("\\b" + escapeRegex(word) + "\\b", "gi")`)

`escapeRegex` makes the word a literal, so a match of the pattern at
position `i` is: the substring of length `word.length` starting at `i`
equals the word case-insensitively, and a `\b` boundary holds at `i` and
at `i + word.length`.  A `\b` boundary holds at a position iff exactly one
of the adjacent characters (out-of-range counts as non-word) is a `\w`
character. -/

/-- Whether the character at index `j` exists and is a `\w` character. -/
def wordCharAt : List Char → Nat → Bool
  | [], _ => false
  | c :: _, 0 => isWordChar c
  | _ :: rest, n + 1 => wordCharAt rest n

/-- JS regex `\b` assertion at position `j` of `text`. -/
def boundaryAt (text : List Char) : Nat → Bool
  | 0 => wordCharAt text 0
  | n + 1 => wordCharAt text n != wordCharAt text (n + 1)

/-- The length-`len` substring of `text` starting at index `i`. -/
def extract (text : List Char) (i len : Nat) : List Char :=
  (text.drop i).take len

/-- Whether the case-insensitive word-boundary pattern for `w` matches
`text` at position `i`. -/
def matchesAt (text w : List Char) (i : Nat) : Bool :=
  ciEq (extract text i w.length) w && boundaryAt text i &&
    boundaryAt text (i + w.length)

/-- Fuelled version of the `exec` loop of `replaceWordInNode`: starting
from position `i`, collect the non-overlapping matches (position and
actually matched text, preserving original case) left to right, resuming
after each match. -/
def findMatchesAux (text w : List Char) : Nat → Nat → List (Nat × List Char)
  | 0, _ => []
  | fuel + 1, i =>
    if w = [] then []
    else if text.length < i + w.length then []
    else if matchesAt text w i then
      (i, extract text i w.length) :: findMatchesAux text w fuel (i + w.length)
    else
      findMatchesAux text w fuel (i + 1)

/-- The `exec` loop from position `i`; `text.length + 1 - i` fuel always
suffices because the position strictly increases and the loop stops when
fewer than `w.length` characters remain. -/
def findMatchesFrom (text w : List Char) (i : Nat) : List (Nat × List Char) :=
  findMatchesAux text w (text.length + 1 - i) i

theorem findMatchesAux_congr (text w : List Char) :
    ∀ fuel₁ fuel₂ i, text.length + 1 - i ≤ fuel₁ → text.length + 1 - i ≤ fuel₂ →
      findMatchesAux text w fuel₁ i = findMatchesAux text w fuel₂ i := by
  intro fuel₁
  induction fuel₁ with
  | zero =>
    intro fuel₂ i h1 h2
    cases fuel₂ with
    | zero => rfl
    | succ f =>
      simp only [findMatchesAux]
      split
      · rfl
      · rw [if_pos (by omega)]
  | succ f ih =>
    intro fuel₂ i h1 h2
    cases fuel₂ with
    | zero =>
      simp only [findMatchesAux]
      split
      · rfl
      · rw [if_pos (by omega)]
    | succ f₂ =>
      simp only [findMatchesAux]
      split
      · rfl
      · split
        · rfl
        · split
          · rename_i hw hlen hm
            have hwl : 0 < w.length := List.length_pos.mpr hw
            rw [ih f₂ (i + w.length) (by omega) (by omega)]
          · rename_i hw hlen hm
            have hwl : 0 < w.length := List.length_pos.mpr hw
            rw [ih f₂ (i + 1) (by omega) (by omega)]

/-- One-step unfolding of `findMatchesFrom`, mirroring the source loop. -/
theorem findMatchesFrom_eq (text w : List Char) (i : Nat) :
    findMatchesFrom text w i =
      if w = [] then []
      else if text.length < i + w.length then []
      else if matchesAt text w i then
        (i, extract text i w.length) :: findMatchesFrom text w (i + w.length)
      else
        findMatchesFrom text w (i + 1) := by
  unfold findMatchesFrom
  rcases hfi : text.length + 1 - i with _ | f
  · simp only [findMatchesAux]
    split
    · rfl
    · rw [if_pos (by omega)]
  · simp only [findMatchesAux]
    split
    · rfl
    · split
      · rfl
      · split
        · rename_i hw hlen hm
          have hwl : 0 < w.length := List.length_pos.mpr hw
          rw [findMatchesAux_congr text w f (text.length + 1 - (i + w.length))
            (i + w.length) (by omega) (by omega)]
        · rename_i hw hlen hm
          have hwl : 0 < w.length := List.length_pos.mpr hw
          rw [findMatchesAux_congr text w f (text.length + 1 - (i + 1))
            (i + 1) (by omega) (by omega)]

/-- All matches of the word-boundary pattern for `w` in `text`. -/
def findMatches (text w : List Char) : List (Nat × List Char) :=
  findMatchesFrom text w 0

/-! ## Capitalization transfer (`preserveCapitalization`) -/

/-- Model of `preserveCapitalization(original, translated)`: uppercase the whole
translation when the matched original equals its own uppercasing,
otherwise capitalize only the translation's first character when the
original's first character equals its own uppercasing, otherwise return
the translation unchanged. -/
def preserveCapitalization (original translated : List Char) : List Char :=
  match original, translated with
  | [], t => t
  | _, [] => []
  | oc :: orest, tc :: trest =>
    if (oc :: orest).map upperChar = oc :: orest then
      (tc :: trest).map upperChar
    else if upperChar oc = oc then
      upperChar tc :: trest
    else
      tc :: trest

/-- Claim C7. The case of each matched occurrence is transferred onto the
translated word: whole-match-uppercase gives a fully uppercased
translation, else a capitalized first character gives a translation with
only its first character capitalized, and otherwise the translation is
used as returned. -/
theorem c7_preserveCapitalization_cases (oc : Char) (orest : List Char)
    (tc : Char) (trest : List Char) :
    ((oc :: orest).map upperChar = oc :: orest →
      preserveCapitalization (oc :: orest) (tc :: trest) =
        (tc :: trest).map upperChar) ∧
    (¬(oc :: orest).map upperChar = oc :: orest → upperChar oc = oc →
      preserveCapitalization (oc :: orest) (tc :: trest) =
        upperChar tc :: trest) ∧
    (¬(oc :: orest).map upperChar = oc :: orest → ¬upperChar oc = oc →
      preserveCapitalization (oc :: orest) (tc :: trest) = tc :: trest) := by
  refine ⟨fun h => ?_, fun h1 h2 => ?_, fun h1 h2 => ?_⟩
  · simp only [preserveCapitalization]
    rw [if_pos h]
  · simp only [preserveCapitalization]
    rw [if_neg h1, if_pos h2]
  · simp only [preserveCapitalization]
    rw [if_neg h1, if_neg h2]

/-- Claim C7, witness. `"CAT" → "CHAT"`, `"Cat" → "Chat"`, `"cat" → "chat"`. -/
theorem c7_witness :
    preserveCapitalization ['C', 'A', 'T'] ['c', 'h', 'a', 't'] =
      ['C', 'H', 'A', 'T'] ∧
    preserveCapitalization ['C', 'a', 't'] ['c', 'h', 'a', 't'] =
      ['C', 'h', 'a', 't'] ∧
    preserveCapitalization ['c', 'a', 't'] ['c', 'h', 'a', 't'] =
      ['c', 'h', 'a', 't'] := by
  refine ⟨?_, ?_, ?_⟩
  · have h := c7_preserveCapitalization_cases 'C' ['A', 'T'] 'c' ['h', 'a', 't']
    exact (h.1 (by decide)).trans (by decide)
  · have h := c7_preserveCapitalization_cases 'C' ['a', 't'] 'c' ['h', 'a', 't']
    exact (h.2.1 (by decide) (by decide)).trans (by decide)
  · have h := c7_preserveCapitalization_cases 'c' ['a', 't'] 'c' ['h', 'a', 't']
    exact h.2.2 (by decide) (by decide)

/-! ## DOM model and the DOM mutator (`replaceWordInNode`,
`createTranslatedWordSpan`) -/

/-- A flattened DOM node: either a text node or an inline element with a
class name, attribute list and text content.  Replacement spans are
`span` elements with class `translated-word`. -/
inductive DomNode
  | textNode (s : List Char)
  | spanNode (className : String) (attrs : List (String × List Char)) (content : List Char)
deriving DecidableEq, Repr

/-- Model of `createTranslatedWordSpan(originalWord, translatedWord)`: a
`span.translated-word` whose text content is the translated word and
which durably stores `data-original` and `data-translation`. -/
def createTranslatedWordSpan (originalWord translatedWord : List Char) : DomNode :=
  .spanNode "translated-word"
    [("data-original", originalWord), ("data-translation", translatedWord)]
    translatedWord

/-- The fragment-building loop of `replaceWordInNode`: literal text runs
before each match, a replacement span per match, and the trailing run. -/
def buildFragment (text translatedWord : List Char) :
    List (Nat × List Char) → Nat → List DomNode
  | [], lastIndex =>
    if lastIndex < text.length then [.textNode (text.drop lastIndex)] else []
  | (i, m) :: rest, lastIndex =>
    (if lastIndex < i then [DomNode.textNode (extract text lastIndex (i - lastIndex))] else []) ++
      createTranslatedWordSpan m (preserveCapitalization m translatedWord) ::
        buildFragment text translatedWord rest (i + m.length)

/-- Model of `replaceWordInNode(node, originalWord, translatedWord)` applied to a
text node holding `text`: if the pattern does not occur the node is left
unchanged, otherwise the node is replaced by the built fragment. -/
def replaceWordInNode (text originalWord translatedWord : List Char) : List DomNode :=
  if (findMatches text originalWord).isEmpty then [.textNode text]
  else buildFragment text translatedWord (findMatches text originalWord) 0

/-- The text recovered by replacing every replacement span with its
`data-original` attribute (what the reverter is meant to restore). -/
def restoreText (nodes : List DomNode) : List Char :=
  nodes.flatMap fun n =>
    match n with
    | .textNode s => s
    | .spanNode _ attrs _ => (attrs.lookup "data-original").getD []

/-- The text a reader currently sees: spans contribute their content. -/
def renderedText (nodes : List DomNode) : List Char :=
  nodes.flatMap fun n =>
    match n with
    | .textNode s => s
    | .spanNode _ _ content => content

/-- The `(data-original, content)` pairs of the replacement spans, in
document order. -/
def spansOf (nodes : List DomNode) : List (List Char × List Char) :=
  nodes.flatMap fun n =>
    match n with
    | .textNode _ => []
    | .spanNode className attrs content =>
      if className = "translated-word" then
        [((attrs.lookup "data-original").getD [], content)]
      else []

/-! ## Reverter (`translationCleaner.ts` `clearTranslations`)

For every element matching `.translated-word` it reads
`getAttribute("data-english")` and, only when that value is truthy,
replaces the span with a text node holding it. -/

/-- Model of `clearTranslations()` over a flat node list. -/
def clearTranslations (nodes : List DomNode) : List DomNode :=
  nodes.map fun n =>
    match n with
    | .textNode s => .textNode s
    | .spanNode className attrs content =>
      if className = "translated-word" then
        match attrs.lookup "data-english" with
        | some w => if w ≠ [] then .textNode w else .spanNode className attrs content
        | none => .spanNode className attrs content
      else .spanNode className attrs content

/-- The superseded generation of `clearTranslations` (the one shipped next
to `createTranslatedWordSpan`), which reads `data-original` instead. -/
def clearTranslationsLegacy (nodes : List DomNode) : List DomNode :=
  nodes.map fun n =>
    match n with
    | .textNode s => .textNode s
    | .spanNode className attrs content =>
      if className = "translated-word" then
        match attrs.lookup "data-original" with
        | some w => if w ≠ [] then .textNode w else .spanNode className attrs content
        | none => .spanNode className attrs content
      else .spanNode className attrs content

/-- Claim C1 (code bug). The span creator stores the original word under
`data-original`, but `clearTranslations` in `translationCleaner.ts` reads
`data-english`, which is never set on replacement spans.  Translating
`"a cat."` with the pair `cat → chat` and then reverting leaves the
replacement span untouched: the revert is the identity on the document,
one translated span remains unrestored, and the rendered text stays
`"a chat."` instead of returning to `"a cat."`.  (The superseded cleaner
generation, which reads `data-original`, does restore the text.) -/
theorem c1_clearTranslations_misses_spans :
    clearTranslations
        (replaceWordInNode "a cat.".data "cat".data "chat".data) =
      replaceWordInNode "a cat.".data "cat".data "chat".data ∧
    (spansOf (clearTranslations
        (replaceWordInNode "a cat.".data "cat".data "chat".data))).length = 1 ∧
    renderedText (clearTranslations
        (replaceWordInNode "a cat.".data "cat".data "chat".data)) ≠ "a cat.".data ∧
    restoreText (clearTranslationsLegacy
        (replaceWordInNode "a cat.".data "cat".data "chat".data)) = "a cat.".data := by
  refine ⟨by decide, by decide, by decide, by decide⟩

/-! ## Properties of the word-boundary scan -/

theorem wordCharAt_eq_getElem (l : List Char) :
    ∀ j, wordCharAt l j = ((l[j]?).map isWordChar).getD false := by
  induction l with
  | nil => intro j; simp [wordCharAt]
  | cons c rest ih =>
    intro j
    cases j with
    | zero => simp [wordCharAt]
    | succ n => simpa [wordCharAt] using ih n

theorem ciEq_eq_true_iff (a b : List Char) :
    ciEq a b = true ↔ lowerKey a = lowerKey b := by
  unfold ciEq
  exact beq_iff_eq

theorem matchesAt_parts {text w : List Char} {i : Nat}
    (h : matchesAt text w i = true) :
    ciEq (extract text i w.length) w = true ∧ boundaryAt text i = true ∧
      boundaryAt text (i + w.length) = true := by
  unfold matchesAt at h
  simp only [Bool.and_eq_true] at h
  exact ⟨h.1.1, h.1.2, h.2⟩

theorem matchesAt_length_le {text w : List Char} {i : Nat} (hw : w ≠ [])
    (h : matchesAt text w i = true) : i + w.length ≤ text.length := by
  have hwl : 0 < w.length := List.length_pos.mpr hw
  have hlen : (extract text i w.length).length = w.length := by
    have := congrArg List.length ((ciEq_eq_true_iff _ _).mp (matchesAt_parts h).1)
    simpa [lowerKey] using this
  have hmin : min w.length (text.length - i) = w.length := by
    simpa [extract, List.length_take, List.length_drop] using hlen
  have := min_eq_left_iff.mp hmin
  omega

theorem matchesAt_wordChar {text w : List Char} {i : Nat}
    (hall : ∀ c ∈ w, isWordChar c = true)
    (h : matchesAt text w i = true) :
    ∀ k, k < w.length → wordCharAt text (i + k) = true := by
  intro k hk
  have hw : w ≠ [] := List.length_pos.mp (by omega)
  have hbound := matchesAt_length_le hw h
  have hci : lowerKey (extract text i w.length) = lowerKey w :=
    (ciEq_eq_true_iff _ _).mp (matchesAt_parts h).1
  have hglow := congrArg (fun l => l[k]?) hci
  simp only [lowerKey, List.getElem?_map] at hglow
  have hextract : (extract text i w.length)[k]? = text[i + k]? := by
    unfold extract
    rw [List.getElem?_take_of_lt hk, List.getElem?_drop]
  have hik : i + k < text.length := by omega
  have hwk : w[k]? = some w[k] := List.getElem?_eq_getElem hk
  have htk : text[i + k]? = some text[i + k] := List.getElem?_eq_getElem hik
  rw [hextract, hwk, htk] at hglow
  simp only [Option.map_some'] at hglow
  have hlow : lowerN text[i + k].toNat = lowerN w[k].toNat :=
    Option.some.inj hglow
  have hw : isWordChar w[k] = true := hall _ (List.getElem_mem hk)
  have : isWordChar text[i + k] = true := by
    unfold isWordChar at hw ⊢
    rw [← isWordCharN_lowerN, hlow, isWordCharN_lowerN]
    exact hw
  rw [wordCharAt_eq_getElem, htk]
  simpa using this

theorem matchesAt_no_overlap {text w : List Char} {i j : Nat}
    (hw : w ≠ []) (hall : ∀ c ∈ w, isWordChar c = true)
    (hi : matchesAt text w i = true) (hj : matchesAt text w j = true)
    (hij : i < j) (hover : j < i + w.length) : False := by
  have hwl : 0 < w.length := List.length_pos.mpr hw
  -- the character before position j lies inside the match at i
  have hprev : wordCharAt text (j - 1) = true := by
    have hk : j - 1 - i < w.length := by omega
    have := matchesAt_wordChar hall hi (j - 1 - i) hk
    have hidx : i + (j - 1 - i) = j - 1 := by omega
    rwa [hidx] at this
  -- the character at position j is the first character of the match at j
  have hcur : wordCharAt text j = true := by
    have := matchesAt_wordChar hall hj 0 hwl
    simpa using this
  -- but matchesAt at j requires a \b boundary at j
  have hb : boundaryAt text j = true := (matchesAt_parts hj).2.1
  rcases hj' : j with _ | n
  · omega
  · rw [hj'] at hb hprev hcur
    simp only [boundaryAt] at hb
    have : n + 1 - 1 = n := by omega
    rw [this] at hprev
    rw [hprev, hcur] at hb
    simp at hb

/-- Well-formedness of a match list relative to a resume position: each
match starts at or after the resume position, lies within the text, and
carries exactly the matched substring; the next match resumes after it. -/
inductive ValidMatches (text : List Char) : Nat → List (Nat × List Char) → Prop
  | nil (last : Nat) : ValidMatches text last []
  | cons (last p : Nat) (m : List Char) (rest : List (Nat × List Char))
      (hle : last ≤ p) (hin : p + m.length ≤ text.length)
      (hm : m = extract text p m.length)
      (hrest : ValidMatches text (p + m.length) rest) :
      ValidMatches text last ((p, m) :: rest)

theorem validMatches_weaken {text : List Char} {last last' : Nat}
    {ms : List (Nat × List Char)} (h : ValidMatches text last ms)
    (hle : last' ≤ last) : ValidMatches text last' ms := by
  cases h with
  | nil => exact .nil last'
  | cons last p m rest h1 h2 h3 h4 => exact .cons last' p m rest (by omega) h2 h3 h4

theorem findMatchesFrom_valid (text w : List Char) :
    ∀ n i, text.length + 1 - i ≤ n → ValidMatches text i (findMatchesFrom text w i) := by
  intro n
  induction n with
  | zero =>
    intro i hi
    rw [findMatchesFrom_eq]
    split
    · exact .nil i
    · rw [if_pos (by omega)]
      exact .nil i
  | succ n ih =>
    intro i hi
    rw [findMatchesFrom_eq]
    split
    · exact .nil i
    · split
      · exact .nil i
      · rename_i hw hlen
        have hwl : 0 < w.length := List.length_pos.mpr hw
        split
        · rename_i hm
          have hext : (extract text i w.length).length = w.length := by
            simp only [extract, List.length_take, List.length_drop]
            omega
          refine .cons i i (extract text i w.length) _ (le_refl i) ?_ ?_ ?_
          · rw [hext]; omega
          · rw [hext]
          · rw [hext]
            exact validMatches_weaken (ih (i + w.length) (by omega)) (le_refl _)
        · exact validMatches_weaken (ih (i + 1) (by omega)) (by omega)

theorem restoreText_append (a b : List DomNode) :
    restoreText (a ++ b) = restoreText a ++ restoreText b := by
  simp [restoreText]

theorem extract_append_drop (text : List Char) {a b : Nat} (h : a ≤ b) :
    extract text a (b - a) ++ text.drop b = text.drop a := by
  unfold extract
  have hd : text.drop b = (text.drop a).drop (b - a) := by
    rw [List.drop_drop]
    congr 1
    omega
  rw [hd, List.take_append_drop]

/-- The fragment built from a well-formed match list restores, span
originals included, exactly the suffix of the text it covers. -/
theorem restoreText_buildFragment (text t : List Char) :
    ∀ (ms : List (Nat × List Char)) (last : Nat), ValidMatches text last ms →
      restoreText (buildFragment text t ms last) = text.drop last := by
  intro ms
  induction ms with
  | nil =>
    intro last _
    simp only [buildFragment]
    split
    · simp [restoreText, extract]
    · rename_i hge
      rw [List.drop_eq_nil_of_le (by omega)]
      simp [restoreText]
  | cons pm rest ih =>
    rcases pm with ⟨p, m⟩
    intro last hv
    cases hv with
    | cons _ _ _ _ hle hin hm hrest =>
      simp only [buildFragment]
      rw [restoreText_append]
      have hspan : restoreText
          (createTranslatedWordSpan m (preserveCapitalization m t) ::
            buildFragment text t rest (p + m.length)) =
          m ++ restoreText (buildFragment text t rest (p + m.length)) := by
        simp [restoreText, createTranslatedWordSpan, List.lookup]
      rw [hspan, ih (p + m.length) hrest]
      have hsuffix : m ++ text.drop (p + m.length) = text.drop p := by
        have hs := extract_append_drop text (a := p) (b := p + m.length) (by omega)
        rw [show p + m.length - p = m.length from by omega] at hs
        rw [← hm] at hs
        exact hs
      by_cases hlt : last < p
      · rw [if_pos hlt]
        have hpre : restoreText [DomNode.textNode (extract text last (p - last))] =
            extract text last (p - last) := by simp [restoreText]
        rw [hpre, hsuffix]
        exact extract_append_drop text hle
      · rw [if_neg hlt]
        have hpe : last = p := by omega
        rw [hsuffix, hpe]
        simp [restoreText]

theorem findMatchesFrom_sound (text w : List Char) :
    ∀ n i, text.length + 1 - i ≤ n →
      ∀ p m, (p, m) ∈ findMatchesFrom text w i → matchesAt text w p = true := by
  intro n
  induction n with
  | zero =>
    intro i hi p m hmem
    rw [findMatchesFrom_eq] at hmem
    split at hmem
    · simp at hmem
    · rw [if_pos (by omega)] at hmem
      simp at hmem
  | succ n ih =>
    intro i hi p m hmem
    rw [findMatchesFrom_eq] at hmem
    split at hmem
    · simp at hmem
    · split at hmem
      · simp at hmem
      · rename_i hw hlen
        have hwl : 0 < w.length := List.length_pos.mpr hw
        split at hmem
        · rename_i hm
          rcases List.mem_cons.mp hmem with heq | htail
          · obtain ⟨h1, h2⟩ := Prod.mk.injEq .. ▸ heq
            rw [← h1] at hm
            exact hm
          · exact ih (i + w.length) (by omega) p m htail
        · exact ih (i + 1) (by omega) p m hmem

theorem findMatchesFrom_complete (text w : List Char) (hw : w ≠ [])
    (hall : ∀ c ∈ w, isWordChar c = true) :
    ∀ n i, text.length + 1 - i ≤ n →
      ∀ j, i ≤ j → matchesAt text w j = true →
        j ∈ (findMatchesFrom text w i).map Prod.fst := by
  have hwl : 0 < w.length := List.length_pos.mpr hw
  intro n
  induction n with
  | zero =>
    intro i hi j hij hj
    have := matchesAt_length_le hw hj
    omega
  | succ n ih =>
    intro i hi j hij hj
    have hjlen := matchesAt_length_le hw hj
    rw [findMatchesFrom_eq]
    rw [if_neg hw, if_neg (by omega : ¬text.length < i + w.length)]
    split
    · rename_i hmi
      rcases Nat.eq_or_lt_of_le hij with heq | hlt
      · rw [← heq]
        simp
      · have hge : i + w.length ≤ j := by
          by_contra hno
          exact matchesAt_no_overlap hw hall hmi hj hlt (by omega)
        have := ih (i + w.length) (by omega) j hge hj
        simpa using Or.inr this
    · rename_i hmi
      have hne : j ≠ i := by
        intro heq
        rw [heq] at hj
        exact hmi hj
      exact ih (i + 1) (by omega) j (by omega) hj

theorem spansOf_append (a b : List DomNode) :
    spansOf (a ++ b) = spansOf a ++ spansOf b := by
  simp [spansOf]

theorem spansOf_buildFragment (text t : List Char) :
    ∀ (ms : List (Nat × List Char)) (last : Nat),
      spansOf (buildFragment text t ms last) =
        ms.map fun pm => (pm.2, preserveCapitalization pm.2 t) := by
  intro ms
  induction ms with
  | nil =>
    intro last
    simp only [buildFragment]
    split <;> simp [spansOf]
  | cons pm rest ih =>
    rcases pm with ⟨p, m⟩
    intro last
    simp only [buildFragment]
    rw [spansOf_append]
    have hpre : spansOf
        (if last < p then [DomNode.textNode (extract text last (p - last))] else []) = [] := by
      split <;> simp [spansOf]
    rw [hpre]
    have hcons : createTranslatedWordSpan m (preserveCapitalization m t) ::
        buildFragment text t rest (p + m.length) =
        [createTranslatedWordSpan m (preserveCapitalization m t)] ++
          buildFragment text t rest (p + m.length) := rfl
    rw [hcons, spansOf_append, ih (p + m.length)]
    simp [spansOf, createTranslatedWordSpan, List.lookup]

/-- Claim C3. For every text node and word pair (a nonempty original made of
word characters), `replaceWordInNode` rewrites exactly the
case-insensitive word-boundary occurrences of the original word:
(1) every non-matched character, punctuation and whitespace included, is
preserved byte-for-byte in original order (replacing each span by its
matched original reconstructs the node text exactly);
(2) a position is replaced iff the word-boundary case-insensitive pattern
matches there — substring-but-not-token occurrences are never replaced;
(3) every occurrence is replaced with the same translation, namely the
pair's translated word under the deterministic case transfer of its
matched text. -/
theorem c3_replaceWordInNode_exact (text w t : List Char) (hw : w ≠ [])
    (hall : ∀ c ∈ w, isWordChar c = true) :
    restoreText (replaceWordInNode text w t) = text ∧
    (∀ j, j ∈ (findMatches text w).map Prod.fst ↔ matchesAt text w j = true) ∧
    spansOf (replaceWordInNode text w t) =
      (findMatches text w).map fun pm => (pm.2, preserveCapitalization pm.2 t) := by
  refine ⟨?_, fun j => ⟨fun hmem => ?_, fun hj => ?_⟩, ?_⟩
  · unfold replaceWordInNode
    split
    · simp [restoreText]
    · have hv : ValidMatches text 0 (findMatches text w) :=
        findMatchesFrom_valid text w (text.length + 1) 0 (by omega)
      rw [restoreText_buildFragment text t (findMatches text w) 0 hv]
      simp
  · obtain ⟨⟨p, m⟩, hpm, hfst⟩ := List.mem_map.mp hmem
    rw [← hfst]
    exact findMatchesFrom_sound text w (text.length + 1) 0 (by omega) p m hpm
  · exact findMatchesFrom_complete text w hw hall (text.length + 1) 0 (by omega) j
      (Nat.zero_le j) hj
  · unfold replaceWordInNode
    split
    · rename_i hempty
      rw [List.isEmpty_iff.mp hempty]
      simp [spansOf]
    · exact spansOf_buildFragment text t (findMatches text w) 0

/-- Claim C3, witness. Instantiated at `"The cat sat, a CAT! category scatter cat"`
with the pair `cat → chat`: the original text is reconstructed from the
output byte-for-byte, position 4 (the token `cat`) is replaced while
position 25 (`cat` inside `category`) is not, and the whole-word
occurrences are wrapped with the case-transferred translation. -/
theorem c3_witness :
    restoreText (replaceWordInNode
        "The cat sat, a CAT! category scatter cat".data "cat".data "chat".data) =
      "The cat sat, a CAT! category scatter cat".data ∧
    (4 ∈ (findMatches "The cat sat, a CAT! category scatter cat".data "cat".data).map
        Prod.fst ↔
      matchesAt "The cat sat, a CAT! category scatter cat".data "cat".data 4 = true) ∧
    matchesAt "The cat sat, a CAT! category scatter cat".data "cat".data 4 = true ∧
    matchesAt "The cat sat, a CAT! category scatter cat".data "cat".data 20 = false ∧
    replaceWordInNode "category".data "cat".data "chat".data =
      [DomNode.textNode "category".data] := by
  have h := c3_replaceWordInNode_exact
    "The cat sat, a CAT! category scatter cat".data "cat".data "chat".data
    (by decide) (by decide)
  exact ⟨h.1, h.2.1 4, by decide, by decide, by decide⟩

/-! ## Word-pair resolver (`PromptService`)

`selectWordsFromBatch` (batch generation) computes the target count, asks
the Selector (Prompt API) for word pairs, validates them against the
batch text and returns the valid subset; on any thrown error it returns
an empty array.  The superseded sentence-level `selectWordsToTranslate`
instead falls back to `fallbackWordSelection` on error. -/

/-- The record `WordPair { original, translated }`. -/
structure WordPair where
  original : List Char
  translated : List Char
deriving DecidableEq, Repr

/-- The `validateWordPairs` per-pair test for a *metacharacter-free*
original: the regex `new RegExp("\\b" + pair.original.toLowerCase() + "\\b")`
is built without escaping, so such an original reads as a literal word
tested against `originalText.toLowerCase()`.  (The general unescaped
construction, which can interpret metacharacters or throw a
`SyntaxError`, is modelled by `compileBoundaryRegex` below.) -/
def wordBoundaryOccurs (w text : List Char) : Bool :=
  !(findMatches (text.map lowerChar) (w.map lowerChar)).isEmpty

/-- The pairs surviving `validateWordPairs(pairs, originalText)` when
every original compiles to a literal pattern — the fragment the batch
pipeline model works in.  `validateWordPairsChecked` below extends this
with the `SyntaxError` path of the unescaped regex construction and is
proven to agree with it on this fragment. -/
def validateWordPairs (pairs : List WordPair) (originalText : List Char) : List WordPair :=
  pairs.filter fun p => wordBoundaryOccurs p.original originalText

/-- Outcome of the Selector capability call inside `selectWordsFromBatch`
(the prompt plus JSON parse, which may throw). -/
inductive SelectorOutcome
  | ok (pairs : List WordPair)
  | err
deriving DecidableEq, Repr

/-- Model of `selectWordsFromBatch` on pair lists whose originals are
metacharacter-free: on success the parsed pairs are validated and the
valid subset returned (with only a logged warning on under-fulfilment);
on any error the `catch` returns an empty array.
`selectWordsFromBatchChecked` below refines the success path with the
failure mode of the unescaped regex construction. -/
def selectWordsFromBatch (outcome : SelectorOutcome) (originalText : List Char) :
    List WordPair :=
  match outcome with
  | .ok pairs => validateWordPairs pairs originalText
  | .err => []

/-- The `DifficultyLevel` type from `translationConfig.ts`. -/
inductive Difficulty | beginner | intermediate | advanced
deriving DecidableEq, Repr

/-- The builtin stop-word set of `fallbackWordSelection`. -/
def commonWords : List (List Char) :=
  ["the", "a", "an", "and", "or", "but", "is", "are", "was", "were", "be",
   "been", "have", "has", "had", "do", "does", "did", "will", "would",
   "could", "should", "can", "may", "might", "must", "i", "you", "he",
   "she", "it", "we", "they", "this", "that", "in", "on", "at", "to",
   "for", "of", "with", "from", "by"].map String.data

/-- Stable insertion of `x` after every element `y` with `le y x`
(model of the stable JS `Array.prototype.sort`). -/
def insertSortedBy (le : List Char → List Char → Bool) (x : List Char) :
    List (List Char) → List (List Char)
  | [] => [x]
  | y :: ys => if le y x then y :: insertSortedBy le x ys else x :: y :: ys

/-- Stable sort by the Boolean comparator `le`: elements are inserted
left to right, each placed after every already-placed element that
compares `le` to it, so elements that compare equal keep their original
relative order, as JS `Array.prototype.sort` guarantees. -/
def sortBy (le : List Char → List Char → Bool) (l : List (List Char)) :
    List (List Char) :=
  l.foldl (fun acc x => insertSortedBy le x acc) []

/-- JS `Set` insertion: a no-op when the value is already present,
otherwise appended (iteration order is insertion order). -/
def insertUniq (acc : List (List Char)) (x : List Char) : List (List Char) :=
  if x ∈ acc then acc else acc ++ [x]

/-- Model of `Array.from(new Set(candidates.map(w => w.toLowerCase())))`. -/
def dedupLowercase (l : List (List Char)) : List (List Char) :=
  l.foldl (fun acc w => insertUniq acc (w.map lowerChar)) []

/-- Model of `fallbackWordSelection(sentence, targetCount, config)`: tokenize, keep
words of length ≥ 3 outside the stop-word set, dedupe case-insensitively,
sort by length (ascending for beginner, descending for advanced, original
order for intermediate) and take the first `targetCount`. -/
def fallbackWordSelection (sentence : List Char) (targetCount : Nat)
    (difficulty : Difficulty) : List (List Char) :=
  let candidates := (wordTokens sentence).filter fun w =>
    decide (3 ≤ w.length) && !(commonWords.contains (w.map lowerChar))
  let deduped := dedupLowercase candidates
  let sorted := match difficulty with
    | .beginner => sortBy (fun a b => decide (a.length ≤ b.length)) deduped
    | .advanced => sortBy (fun a b => decide (b.length ≤ a.length)) deduped
    | .intermediate => deduped
  sorted.take targetCount

/-- Outcome of the Selector call inside the sentence-level
`selectWordsToTranslate`. -/
inductive SentenceSelectorOutcome
  | ok (words : List (List Char))
  | err
deriving DecidableEq, Repr

/-- Whether `big` starts with `small`. -/
def startsWithList (big small : List Char) : Bool :=
  match big, small with
  | _, [] => true
  | [], _ :: _ => false
  | a :: as, b :: bs => a == b && startsWithList as bs

/-- Whether `small` occurs as a contiguous substring of `big`
(JS `String.prototype.includes`). -/
def containsSub (big small : List Char) : Bool :=
  match big with
  | [] => small.isEmpty
  | _ :: rest => startsWithList big small || containsSub rest small

/-- Model of `sentenceLower.includes(word.toLowerCase())`. -/
def includesCI (sentence w : List Char) : Bool :=
  containsSub (sentence.map lowerChar) (w.map lowerChar)

/-- The superseded sentence-level `selectWordsToTranslate`: on success the
returned words are kept when they occur (as plain substrings,
case-insensitively) in the sentence; on error it falls back to the local
heuristic with the computed target count. -/
def selectWordsToTranslate (outcome : SentenceSelectorOutcome)
    (sentence : List Char) (difficulty : Difficulty) (dens : Density) :
    List (List Char) :=
  match outcome with
  | .ok ws => ws.filter fun w => includesCI sentence w
  | .err => fallbackWordSelection sentence (targetWordCount dens sentence) difficulty

theorem mem_insertSortedBy {le : List Char → List Char → Bool} {x y : List Char}
    {l : List (List Char)} (h : x ∈ insertSortedBy le y l) : x = y ∨ x ∈ l := by
  induction l with
  | nil => simpa [insertSortedBy] using h
  | cons z zs ih =>
    simp only [insertSortedBy] at h
    split at h
    · rcases List.mem_cons.mp h with hz | htail
      · exact Or.inr (List.mem_cons.mpr (Or.inl hz))
      · rcases ih htail with h1 | h2
        · exact Or.inl h1
        · exact Or.inr (List.mem_cons.mpr (Or.inr h2))
    · rcases List.mem_cons.mp h with hx | htail
      · exact Or.inl hx
      · exact Or.inr htail

theorem mem_sortBy {le : List Char → List Char → Bool} {x : List Char}
    {l : List (List Char)} (h : x ∈ sortBy le l) : x ∈ l := by
  have gen : ∀ (l : List (List Char)) (acc : List (List Char)),
      x ∈ l.foldl (fun acc y => insertSortedBy le y acc) acc →
        x ∈ acc ∨ x ∈ l := by
    intro l
    induction l with
    | nil => intro acc h; exact Or.inl h
    | cons z zs ih =>
      intro acc h
      rcases ih (insertSortedBy le z acc) h with h1 | h2
      · rcases mem_insertSortedBy h1 with hz | ha
        · exact Or.inr (List.mem_cons.mpr (Or.inl hz))
        · exact Or.inl ha
      · exact Or.inr (List.mem_cons.mpr (Or.inr h2))
  rcases gen l [] h with h1 | h2
  · cases h1
  · exact h2

theorem mem_insertUniq {acc : List (List Char)} {x z : List Char}
    (h : x ∈ insertUniq acc z) : x ∈ acc ∨ x = z := by
  unfold insertUniq at h
  split at h
  · exact Or.inl h
  · rcases List.mem_append.mp h with h1 | h2
    · exact Or.inl h1
    · exact Or.inr (by simpa using h2)

theorem mem_dedupLowercase {l : List (List Char)} {x : List Char}
    (h : x ∈ dedupLowercase l) : ∃ y ∈ l, x = y.map lowerChar := by
  have gen : ∀ (l : List (List Char)) (acc : List (List Char)),
      x ∈ l.foldl (fun acc w => insertUniq acc (w.map lowerChar)) acc →
        x ∈ acc ∨ ∃ y ∈ l, x = y.map lowerChar := by
    intro l
    induction l with
    | nil => intro acc h; exact Or.inl h
    | cons w ws ih =>
      intro acc h
      rcases ih (insertUniq acc (w.map lowerChar)) h with h1 | h2
      · rcases mem_insertUniq h1 with ha | hb
        · exact Or.inl ha
        · exact Or.inr ⟨w, List.mem_cons_self w ws, hb⟩
      · obtain ⟨y, hy, hxy⟩ := h2
        exact Or.inr ⟨y, List.mem_cons.mpr (Or.inr hy), hxy⟩
  rcases gen l [] h with h1 | h2
  · cases h1
  · exact h2

/-- Claim C4, counterexample. A Selector failure on a batch does *not* fall
back to the local heuristic: `selectWordsFromBatch` returns no pairs for
that batch, even though the heuristic applied to the same text would have
produced candidates (here `scenery` and `mountain`). -/
theorem c4_no_fallback_counterexample :
    selectWordsFromBatch SelectorOutcome.err "Beautiful mountain scenery".data = [] ∧
    fallbackWordSelection "Beautiful mountain scenery".data 2 Difficulty.beginner =
      ["scenery".data, "mountain".data] ∧
    fallbackWordSelection "Beautiful mountain scenery".data 2 Difficulty.beginner ≠ [] := by
  refine ⟨rfl, by decide, by decide⟩

/-- Claim C4, amended. When the Selector call for a batch throws, the
batch-level resolver (`selectWordsFromBatch`) returns an empty pair list
for that batch; the local deterministic heuristic exists only in the
superseded sentence-level `selectWordsToTranslate`, whose error path
returns `fallbackWordSelection` — strip the builtin stop-word list and
words shorter than three characters, dedupe case-insensitively, sort by
word length (ascending for beginner, descending for advanced) and take
the first `targetCount` (so the result never exceeds `targetCount` words
and contains no stop word and no word shorter than three characters). -/
theorem c4_selector_error_behavior (text : List Char) (d : Difficulty)
    (dens : Density) (n : Nat) :
    selectWordsFromBatch SelectorOutcome.err text = [] ∧
    selectWordsToTranslate SentenceSelectorOutcome.err text d dens =
      fallbackWordSelection text (targetWordCount dens text) d ∧
    (fallbackWordSelection text n d).length ≤ n ∧
    ∀ w ∈ fallbackWordSelection text n d, 3 ≤ w.length ∧ ¬w ∈ commonWords := by
  refine ⟨rfl, rfl, List.length_take_le n _, ?_⟩
  intro w hw
  have hdedup : w ∈ dedupLowercase ((wordTokens text).filter fun v =>
      decide (3 ≤ v.length) && !(commonWords.contains (v.map lowerChar))) := by
    have hsorted := List.mem_of_mem_take hw
    rcases d with _ | _ | _
    · exact mem_sortBy hsorted
    · exact hsorted
    · exact mem_sortBy hsorted
  obtain ⟨y, hy, hxy⟩ := mem_dedupLowercase hdedup
  have hyprop := List.mem_filter.mp hy
  have hcond := hyprop.2
  simp only [Bool.and_eq_true, decide_eq_true_eq, Bool.not_eq_true'] at hcond
  constructor
  · rw [hxy, List.length_map]
    exact hcond.1
  · intro hmem
    have : commonWords.contains (y.map lowerChar) = true := by
      rw [← hxy]
      exact List.elem_eq_true_of_mem hmem
    rw [this] at hcond
    exact absurd hcond.2 (by simp)

/-- Claim C4, witness for the amended claim. Instantiated at
`"Beautiful mountain scenery"` with beginner difficulty and high density:
the batch path yields no pairs, and `scenery` (a heuristic result) is at
least three characters long and is not a stop word. -/
theorem c4_selector_error_witness :
    selectWordsFromBatch SelectorOutcome.err "Beautiful mountain scenery".data = [] ∧
    (3 ≤ "scenery".data.length ∧ ¬"scenery".data ∈ commonWords) := by
  have h := c4_selector_error_behavior "Beautiful mountain scenery".data
    Difficulty.beginner Density.high 2
  exact ⟨h.1, h.2.2.2 "scenery".data (by decide)⟩

/-! ## Batch pipeline (`translateAndReplaceBatches` / `processBatch` /
`replaceWordsInSentence`) -/

/-- A `SentenceBatch`: the member sentences' owning text-node contents and
the space-joined `combinedText` sent to the external services. -/
structure SentenceBatch where
  sentences : List (List Char)
  combinedText : List Char
deriving DecidableEq, Repr

/-- Model of `replaceWordsInSentence(sentence, wordPairs)`: the pairs are applied
in order to the *same* live text node.  The first pair with a match
replaces the node (detaching it), after which the later
`replaceWordInNode` calls find a null `parentNode` and leave the DOM
unchanged — so the node's final DOM shape is `replaceWordInNode` applied
with the first matching pair, or the untouched node. -/
def replaceWordsInSentence (nodeText : List Char) (pairs : List WordPair) :
    List DomNode :=
  match pairs.find? (fun p => !(findMatches nodeText p.original).isEmpty) with
  | some p => replaceWordInNode nodeText p.original p.translated
  | none => [.textNode nodeText]

/-- How one batch's external calls behave: the Translator throws a
non-abort error, throws an `AbortError`, returns a blank translation, or
succeeds (in which case the Selector outcome determines the word pairs). -/
inductive BatchBehavior
  | throwsOther
  | throwsAbort
  | blankTranslation
  | translated (sel : SelectorOutcome)
deriving DecidableEq, Repr

/-- Error signal leaving `processBatch`. -/
inductive PipelineSignal | aborted | other
deriving DecidableEq, Repr

/-- Model of `processBatch`: translate the whole batch (a blank translation skips
the batch), select and validate word pairs (an empty pair list skips the
batch), then mutate each member sentence's node. -/
def processBatch (b : SentenceBatch) (beh : BatchBehavior) :
    Except PipelineSignal (List (List DomNode)) :=
  match beh with
  | .throwsOther => .error .other
  | .throwsAbort => .error .aborted
  | .blankTranslation => .ok []
  | .translated sel =>
    if (selectWordsFromBatch sel b.combinedText).isEmpty then .ok []
    else .ok (b.sentences.map fun s =>
      replaceWordsInSentence s (selectWordsFromBatch sel b.combinedText))

/-- Model of `translateAndReplaceBatches`: sequential loop over the batches with a
`shouldContinue()` check before each one; an `AbortError` stops the loop,
any other error is logged and the loop continues with the next batch. -/
def translateAndReplaceBatches (active : Bool)
    (items : List (SentenceBatch × BatchBehavior)) : List (List DomNode) :=
  match items with
  | [] => []
  | (b, beh) :: rest =>
    if !active then []
    else
      match processBatch b beh with
      | .ok muts => muts ++ translateAndReplaceBatches active rest
      | .error .aborted => []
      | .error .other => translateAndReplaceBatches active rest

/-- The DOM mutations one batch contributes on its own: none when its
Translator call throws a non-abort error or its translation is
blank/yields no pairs, and the per-sentence replacements otherwise. -/
def expectedBatchMutations (b : SentenceBatch) (beh : BatchBehavior) :
    List (List DomNode) :=
  match beh with
  | .translated sel =>
    if (selectWordsFromBatch sel b.combinedText).isEmpty then []
    else b.sentences.map fun s =>
      replaceWordsInSentence s (selectWordsFromBatch sel b.combinedText)
  | _ => []

/-- Claim C5. In an active session, as long as no batch raises the
cancellation signal, a batch whose Translator call throws (for any reason
other than cancellation) or whose translation is empty/blank only skips
that batch: the loop's total output is the independent concatenation of
every batch's own expected mutations, so every other batch still produces
its expected DOM mutations. -/
theorem translateAndReplaceBatches_cons_ok (b : SentenceBatch)
    (beh : BatchBehavior) (muts : List (List DomNode))
    (rest : List (SentenceBatch × BatchBehavior))
    (h : processBatch b beh = .ok muts) :
    translateAndReplaceBatches true ((b, beh) :: rest) =
      muts ++ translateAndReplaceBatches true rest := by
  simp [translateAndReplaceBatches, h]

theorem translateAndReplaceBatches_cons_err (b : SentenceBatch)
    (beh : BatchBehavior) (rest : List (SentenceBatch × BatchBehavior))
    (h : processBatch b beh = .error .other) :
    translateAndReplaceBatches true ((b, beh) :: rest) =
      translateAndReplaceBatches true rest := by
  simp [translateAndReplaceBatches, h]

theorem c5_partial_failure_isolation
    (items : List (SentenceBatch × BatchBehavior))
    (h : ∀ x ∈ items, x.2 ≠ BatchBehavior.throwsAbort) :
    translateAndReplaceBatches true items =
      items.flatMap fun x => expectedBatchMutations x.1 x.2 := by
  induction items with
  | nil => rfl
  | cons item rest ih =>
    rcases item with ⟨b, beh⟩
    have hrest : ∀ x ∈ rest, x.2 ≠ BatchBehavior.throwsAbort := by
      intro x hx
      exact h x (List.mem_cons.mpr (Or.inr hx))
    have hhead : beh ≠ BatchBehavior.throwsAbort :=
      h (b, beh) (List.mem_cons_self _ _)
    cases beh with
    | throwsOther =>
      rw [translateAndReplaceBatches_cons_err b .throwsOther rest rfl,
        List.flatMap_cons, ih hrest,
        show expectedBatchMutations b .throwsOther = [] from rfl,
        List.nil_append]
    | throwsAbort => exact absurd rfl hhead
    | blankTranslation =>
      rw [translateAndReplaceBatches_cons_ok b .blankTranslation [] rest rfl,
        List.flatMap_cons, ih hrest,
        show expectedBatchMutations b .blankTranslation = [] from rfl]
    | translated sel =>
      cases hsel : (selectWordsFromBatch sel b.combinedText).isEmpty with
      | true =>
        have hp : processBatch b (.translated sel) = .ok [] := by
          simp [processBatch, hsel]
        have he : expectedBatchMutations b (.translated sel) = [] := by
          simp [expectedBatchMutations, hsel]
        rw [translateAndReplaceBatches_cons_ok b (.translated sel) [] rest hp,
          List.flatMap_cons, ih hrest, he]
      | false =>
        have hp : processBatch b (.translated sel) = .ok (b.sentences.map fun s =>
            replaceWordsInSentence s (selectWordsFromBatch sel b.combinedText)) := by
          simp [processBatch, hsel]
        have he : expectedBatchMutations b (.translated sel) =
            b.sentences.map fun s =>
              replaceWordsInSentence s (selectWordsFromBatch sel b.combinedText) := by
          simp [expectedBatchMutations, hsel]
        rw [translateAndReplaceBatches_cons_ok b (.translated sel) _ rest hp,
          List.flatMap_cons, ih hrest, he]

/-- Claim C5, witness. Three batches where the middle one's Translator call
throws a non-abort error: the first and third still produce their
expected mutations (and the output is exactly their concatenation). -/
theorem c5_witness :
    translateAndReplaceBatches true
        [(⟨["the cat".data], "the cat".data⟩,
            .translated (.ok [⟨"cat".data, "chat".data⟩])),
          (⟨["a dog".data], "a dog".data⟩, .throwsOther),
          (⟨["one cat".data], "one cat".data⟩,
            .translated (.ok [⟨"cat".data, "chat".data⟩]))] =
      expectedBatchMutations ⟨["the cat".data], "the cat".data⟩
          (.translated (.ok [⟨"cat".data, "chat".data⟩])) ++
        expectedBatchMutations ⟨["one cat".data], "one cat".data⟩
          (.translated (.ok [⟨"cat".data, "chat".data⟩])) ∧
    expectedBatchMutations ⟨["the cat".data], "the cat".data⟩
        (.translated (.ok [⟨"cat".data, "chat".data⟩])) ≠ [] := by
  constructor
  · have h := c5_partial_failure_isolation
      [(⟨["the cat".data], "the cat".data⟩,
          .translated (.ok [⟨"cat".data, "chat".data⟩])),
        (⟨["a dog".data], "a dog".data⟩, .throwsOther),
        (⟨["one cat".data], "one cat".data⟩,
          .translated (.ok [⟨"cat".data, "chat".data⟩]))] (by decide)
    rw [h]
    decide
  · decide

/-! ## Lazy viewport loader (`ProgressiveTextLoader`)

The loader keeps a `WeakSet` of processed elements; on an intersection
entry for an observed element that is intersecting and not yet processed
it marks the element processed, fires the translation callback once, and
unobserves the element.  Elements are identified by numeric ids. -/

/-- Observer state: currently observed targets and processed set. -/
structure LoaderState where
  observed : List Nat
  processed : List Nat
deriving DecidableEq, Repr

/-- Freshly constructed loader: nothing observed, nothing processed. -/
def loaderInit : LoaderState := ⟨[], []⟩

/-- Model of `loader.observe(elements)`. -/
def loaderObserve (s : LoaderState) (els : List Nat) : LoaderState :=
  ⟨s.observed ++ els, s.processed⟩

/-- One intersection entry `(target, isIntersecting)`: when the target is
observed, intersecting and unprocessed, mark it processed, fire the
callback (the returned element) and unobserve it. -/
def loaderStep (s : LoaderState) (entry : Nat × Bool) : LoaderState × Option Nat :=
  if entry.2 && s.observed.contains entry.1 && !(s.processed.contains entry.1) then
    (⟨s.observed.filter (fun x => x != entry.1), entry.1 :: s.processed⟩, some entry.1)
  else (s, none)

/-- Run a sequence of intersection entries, collecting the elements for
which the translation callback fired, in order. -/
def loaderRun (s : LoaderState) : List (Nat × Bool) → LoaderState × List Nat
  | [] => (s, [])
  | e :: es =>
    match loaderStep s e with
    | (s', fired) =>
      match loaderRun s' es with
      | (s'', rest) => (s'', fired.toList ++ rest)

theorem loaderRun_processed_not_fired (el : Nat) :
    ∀ (events : List (Nat × Bool)) (s : LoaderState),
      el ∈ s.processed → el ∉ (loaderRun s events).2 := by
  intro events
  induction events with
  | nil => intro s _ h; simp [loaderRun] at h
  | cons e es ih =>
    intro s hel
    simp only [loaderRun]
    rcases hstep : loaderStep s e with ⟨s', fired⟩
    rcases hrun : loaderRun s' es with ⟨s'', rest⟩
    simp only []
    intro hmem
    unfold loaderStep at hstep
    split at hstep
    · rename_i hguard
      obtain ⟨hs', hfired⟩ := Prod.mk.injEq .. ▸ hstep
      rcases List.mem_append.mp hmem with hf | hr
      · rw [← hfired] at hf
        simp only [Option.toList_some, List.mem_singleton] at hf
        simp only [Bool.and_eq_true, Bool.not_eq_true'] at hguard
        have h3 : s.processed.elem e.1 = true :=
          List.elem_eq_true_of_mem (hf ▸ hel)
        have h4 : s.processed.elem e.1 = false := hguard.2
        rw [h3] at h4
        cases h4
      · have hel' : el ∈ s'.processed := by
          rw [← hs']
          exact List.mem_cons.mpr (Or.inr hel)
        have := ih s' hel'
        rw [hrun] at this
        exact this hr
    · obtain ⟨hs', hfired⟩ := Prod.mk.injEq .. ▸ hstep
      rcases List.mem_append.mp hmem with hf | hr
      · rw [← hfired] at hf
        simp at hf
      · have := ih s' (by rw [← hs']; exact hel)
        rw [hrun] at this
        exact this hr

theorem loaderRun_count_le_one (el : Nat) :
    ∀ (events : List (Nat × Bool)) (s : LoaderState),
      ((loaderRun s events).2.count el) ≤ 1 := by
  intro events
  induction events with
  | nil => intro s; simp [loaderRun]
  | cons e es ih =>
    intro s
    simp only [loaderRun]
    rcases hstep : loaderStep s e with ⟨s', fired⟩
    rcases hrun : loaderRun s' es with ⟨s'', rest⟩
    simp only [List.count_append]
    unfold loaderStep at hstep
    split at hstep
    · rename_i hguard
      obtain ⟨hs', hfired⟩ := Prod.mk.injEq .. ▸ hstep
      by_cases heq : e.1 = el
      · have hzero : rest.count el = 0 := by
          apply List.count_eq_zero.mpr
          have hel' : el ∈ s'.processed := by
            rw [← hs', ← heq]
            exact List.mem_cons_self _ _
          have := loaderRun_processed_not_fired el es s' hel'
          rw [hrun] at this
          exact this
        rw [hzero, ← hfired, heq]
        simp
      · have hone : (fired.toList.count el) = 0 := by
          rw [← hfired]
          simp [List.count_singleton, heq]
        rw [hone]
        have := ih s'
        rw [hrun] at this
        simpa using this
    · obtain ⟨hs', hfired⟩ := Prod.mk.injEq .. ▸ hstep
      rw [← hfired]
      have := ih s'
      rw [hrun] at this
      simpa using this

/-- Claim C9. Every element registered with the lazy viewport watcher is
processed at most once: over any sequence of intersection entries, the
translation callback fires at most once per element (the first trigger
marks it processed, and the guard rejects any later entry for it). -/
theorem c9_lazy_at_most_once (hidden : List Nat) (events : List (Nat × Bool))
    (el : Nat) :
    ((loaderRun (loaderObserve loaderInit hidden) events).2.count el) ≤ 1 :=
  loaderRun_count_le_one el events (loaderObserve loaderInit hidden)

/-! ## Element scan (`getContentElements`)

The scan runs `querySelectorAll` for each include selector inside the
main content root (or the document), filters out excluded or empty
elements, and accumulates results in a JS `Set`, so an element matched by
several selectors is collected once.  Elements are identified by numeric
ids; the per-selector query results and the eligibility test
(`!shouldExclude(el) && el.textContent?.trim()`) are inputs. -/

/-- JS `Set.prototype.add` on an insertion-ordered list. -/
def jsSetAdd (l : List Nat) (x : Nat) : List Nat :=
  if x ∈ l then l else l ++ [x]

/-- Fold one selector's query results into the accumulated set. -/
def addEligibleMatches (eligible : Nat → Bool) (acc : List Nat)
    (qs : List Nat) : List Nat :=
  qs.foldl (fun a el => if eligible el then jsSetAdd a el else a) acc

/-- Model of `getContentElements()`: `Array.from` of the set accumulated over all
include selectors. -/
def getContentElements (selectorMatches : List (List Nat))
    (eligible : Nat → Bool) : List Nat :=
  selectorMatches.foldl (addEligibleMatches eligible) []

theorem jsSetAdd_nodup {l : List Nat} (h : l.Nodup) (x : Nat) :
    (jsSetAdd l x).Nodup := by
  unfold jsSetAdd
  split
  · exact h
  · rename_i hx
    simp [List.nodup_append, h, hx]

theorem mem_jsSetAdd {l : List Nat} {x y : Nat} :
    y ∈ jsSetAdd l x ↔ y ∈ l ∨ y = x := by
  unfold jsSetAdd
  split
  · rename_i hx
    constructor
    · exact Or.inl
    · rintro (h | rfl)
      · exact h
      · exact hx
  · simp

theorem addEligibleMatches_nodup (eligible : Nat → Bool) :
    ∀ (qs : List Nat) (acc : List Nat), acc.Nodup →
      (addEligibleMatches eligible acc qs).Nodup := by
  intro qs
  induction qs with
  | nil => intro acc h; exact h
  | cons m ms ih =>
    intro acc h
    simp only [addEligibleMatches, List.foldl_cons]
    apply ih
    split
    · exact jsSetAdd_nodup h m
    · exact h

theorem mem_addEligibleMatches (eligible : Nat → Bool) :
    ∀ (qs : List Nat) (acc : List Nat) (el : Nat),
      el ∈ addEligibleMatches eligible acc qs ↔
        el ∈ acc ∨ (eligible el = true ∧ el ∈ qs) := by
  intro qs
  induction qs with
  | nil => intro acc el; simp [addEligibleMatches]
  | cons m ms ih =>
    intro acc el
    simp only [addEligibleMatches, List.foldl_cons]
    rw [show (ms.foldl (fun a el => if eligible el then jsSetAdd a el else a)
      (if eligible m then jsSetAdd acc m else acc)) =
      addEligibleMatches eligible (if eligible m then jsSetAdd acc m else acc) ms
      from rfl]
    rw [ih]
    by_cases hm : eligible m = true
    · rw [if_pos hm, mem_jsSetAdd]
      constructor
      · rintro ((h | rfl) | ⟨he, hms⟩)
        · exact Or.inl h
        · exact Or.inr ⟨hm, List.mem_cons_self _ _⟩
        · exact Or.inr ⟨he, List.mem_cons.mpr (Or.inr hms)⟩
      · rintro (h | ⟨he, hmem⟩)
        · exact Or.inl (Or.inl h)
        · rcases List.mem_cons.mp hmem with rfl | hms
          · exact Or.inl (Or.inr rfl)
          · exact Or.inr ⟨he, hms⟩
    · rw [if_neg hm]
      constructor
      · rintro (h | ⟨he, hms⟩)
        · exact Or.inl h
        · exact Or.inr ⟨he, List.mem_cons.mpr (Or.inr hms)⟩
      · rintro (h | ⟨he, hmem⟩)
        · exact Or.inl h
        · rcases List.mem_cons.mp hmem with rfl | hms
          · exact absurd he hm
          · exact Or.inr ⟨he, hms⟩

/-- Claim C10. The element scan returns each content element at most once:
the returned list has no duplicates even when an element matches several
include selectors, and an element is returned iff it is eligible and
matched by at least one selector. -/
theorem c10_getContentElements_nodup (selectorMatches : List (List Nat))
    (eligible : Nat → Bool) :
    (getContentElements selectorMatches eligible).Nodup ∧
    ∀ el, el ∈ getContentElements selectorMatches eligible ↔
      (eligible el = true ∧ ∃ m ∈ selectorMatches, el ∈ m) := by
  have gen : ∀ (sms : List (List Nat)) (acc : List Nat), acc.Nodup →
      (sms.foldl (addEligibleMatches eligible) acc).Nodup ∧
      ∀ el, el ∈ sms.foldl (addEligibleMatches eligible) acc ↔
        (el ∈ acc ∨ (eligible el = true ∧ ∃ m ∈ sms, el ∈ m)) := by
    intro sms
    induction sms with
    | nil =>
      intro acc h
      refine ⟨h, fun el => ?_⟩
      simp
    | cons m ms ih =>
      intro acc h
      obtain ⟨hnd, hmem⟩ := ih (addEligibleMatches eligible acc m)
        (addEligibleMatches_nodup eligible m acc h)
      refine ⟨hnd, fun el => ?_⟩
      rw [List.foldl_cons, hmem el, mem_addEligibleMatches]
      constructor
      · rintro ((h1 | ⟨he, hm⟩) | ⟨he, mm, hmm, hel⟩)
        · exact Or.inl h1
        · exact Or.inr ⟨he, m, List.mem_cons_self _ _, hm⟩
        · exact Or.inr ⟨he, mm, List.mem_cons.mpr (Or.inr hmm), hel⟩
      · rintro (h1 | ⟨he, mm, hmm, hel⟩)
        · exact Or.inl (Or.inl h1)
        · rcases List.mem_cons.mp hmm with rfl | hms
          · exact Or.inl (Or.inr ⟨he, hel⟩)
          · exact Or.inr ⟨he, mm, hms, hel⟩
  obtain ⟨hnd, hmem⟩ := gen selectorMatches [] List.nodup_nil
  refine ⟨hnd, fun el => ?_⟩
  rw [show getContentElements selectorMatches eligible =
    selectorMatches.foldl (addEligibleMatches eligible) [] from rfl, hmem el]
  simp

end Babel
